import Mathlib

/-!
# Verification of the fuzzy entity-resolution engine (src/tfidf.rs, src/database.rs)

Shallow embedding of the TF-IDF similarity index and the name-resolution
protocol of the AIDE repository.  Rust strings are modelled as `String`
(entity names) and `List Char` (character vectors); `f64` arithmetic is
modelled over `ℝ` (term frequencies, which are exact ratios, over `ℚ`);
`HashMap<String, usize>` vocabularies are modelled as a `List String` of
tokens whose vocabulary id is its position, which is exactly the insertion
discipline of the source (`vocabulary.insert(token, vocabulary.len())`);
sparse `HashMap<usize, f64>` vectors are association lists with pairwise
distinct keys.
-/

namespace AIDE

/-- `tokenize` from tfidf.rs: lower-case the text, split on whitespace, keep
only alphanumeric characters and underscore inside each piece, and drop the
pieces that end up empty.  `to_lowercase` is modelled per character
(`Char.toLower`), and `split_whitespace` as a predicate split followed by the
(already present) empty-piece filter. -/
def tokenize (text : String) : List (List Char) :=
  ((List.splitOnP (fun c => c.isWhitespace) (text.toList.map Char.toLower)).map
    (fun s => s.filter (fun c => c.isAlphanum || c = '_'))).filter
    (fun s => !s.isEmpty)

/-- Position of the first occurrence of an element in a list.  This models
both the vocabulary lookup (`vocab.get(token)`: a token's id is the length of
the vocabulary at its insertion, i.e. its position in insertion order) and
`Iterator::position` in tfidf.rs. -/
def firstIdx? {α : Type} [DecidableEq α] : List α → α → Option ℕ
  | [], _ => none
  | x :: xs, a => if x = a then some 0 else (firstIdx? xs a).map (· + 1)

/-- `calculate_tf` from tfidf.rs: the occurrence count of each in-vocabulary
token id, normalized by the length of the whole token sequence.  The support
is the deduplicated id list; the source accumulates the same multiset of
entries in a `HashMap`. -/
def calculate_tf (tokens : List (List Char)) (vocab : List (List Char)) :
    List (ℕ × ℚ) :=
  let ids := tokens.filterMap (fun t => firstIdx? vocab t)
  ids.dedup.map (fun id => (id, (ids.count id : ℚ) / (tokens.length : ℚ)))

/-- The smoothed inverse document frequency `ln(total_docs / (df + 1.0))`
computed throughout tfidf.rs. -/
noncomputable def idf (total : ℕ) (df : ℤ) : ℝ :=
  Real.log ((total : ℝ) / ((df : ℝ) + 1))

/-- A freshly computed TF-IDF vector: each tf entry scaled by the idf of its
id.  This is the vector-construction loop shared by `build_tfidf_index`,
`add_entity` (for the new document), `find_fuzzy_match_in_index` (for the
query) and `recalculate_all_idf`. -/
noncomputable def tfidfVector (vocab : List (List Char)) (dfs : List ℤ)
    (total : ℕ) (tokens : List (List Char)) : List (ℕ × ℝ) :=
  (calculate_tf tokens vocab).map
    (fun p => (p.1, (p.2 : ℝ) * idf total (dfs.getD p.1 0)))

/-- `cosine_similarity` from tfidf.rs: dot product over the entries of the
first vector (missing keys of the second read as `0.0`), squared norms summed
over each vector's own entries, and `0.0` whenever either squared norm is
zero. -/
noncomputable def cosine_similarity (v1 v2 : List (ℕ × ℝ)) : ℝ :=
  let dot := (v1.map (fun p => p.2 * ((List.lookup p.1 v2).getD 0))).sum
  let norm1 := (v1.map (fun p => p.2 * p.2)).sum
  let norm2 := (v2.map (fun p => p.2 * p.2)).sum
  if norm1 = 0 ∨ norm2 = 0 then 0
  else dot / (Real.sqrt norm1 * Real.sqrt norm2)

/-- The two-cursor ordered-character-overlap loop of
`calculate_string_similarity`.  The two arguments are the unread suffixes of
the two character vectors (cursor `i`/`j` pointing at their heads); the Rust
guard `i < input_chars.len() - 1 && input_chars[i + 1] == target_chars[j]`
is exactly `as.head? = some b` for the suffix `a :: as`, and symmetrically
for the second lookahead. -/
def simLoop (xs ys : List Char) : ℕ :=
  match xs, ys with
  | [], _ => 0
  | _ :: _, [] => 0
  | a :: as, b :: bs =>
    if a = b then simLoop as bs + 1
    else if as.head? = some b then simLoop as (b :: bs)
    else if bs.head? = some a then simLoop (a :: as) bs
    else simLoop as bs
termination_by xs.length + ys.length
decreasing_by all_goals simp only [List.length_cons]; omega

/-- `calculate_string_similarity` from tfidf.rs.  `str::contains` between the
two lower-cased strings is substring containment, i.e. `List.IsInfix` on the
character vectors. -/
def calculate_string_similarity (input target : String) : ℚ :=
  let input_lower := input.toList.map Char.toLower
  let target_lower := target.toList.map Char.toLower
  if input_lower <:+: target_lower then 8/10
  else if target_lower <:+: input_lower then 6/10
  else
    let common_chars := simLoop input_lower target_lower
    let max_len := max input_lower.length target_lower.length
    if max_len = 0 then 0 else (common_chars : ℚ) / (max_len : ℚ)

/-- The index of tfidf.rs.  Vocabulary ids are positions in `vocabulary`;
`document_frequencies` holds the `f64` counters (always integral in the
source, hence `ℤ`). -/
structure TfIdfIndex where
  vocabulary : List (List Char)
  document_frequencies : List ℤ
  tfidf_vectors : List (List (ℕ × ℝ))
  entity_names : List String
  total_docs : ℕ

/-- `FuzzyMatchResult` from tfidf.rs. -/
structure FuzzyMatchResult where
  exact_match : Bool
  suggested_name : Option String
  score : Option ℝ

/-- The vocabulary-extension loop: each token that is not yet a key is
inserted with id `vocabulary.len()`, i.e. appended. -/
def extendVocab (vocab : List (List Char)) (tokens : List (List Char)) :
    List (List Char) :=
  tokens.foldl (fun v t => if t ∈ v then v else v ++ [t]) vocab

/-- The vocabulary built by `build_tfidf_index`: ids in first-seen order
across the documents. -/
def buildVocab (docs : List String) : List (List Char) :=
  docs.foldl (fun v doc => extendVocab v (tokenize doc)) []

/-- `build_tfidf_index` from tfidf.rs.  The `word_doc_count` pass increments
one counter per document containing the token (documents deduplicate their
tokens through a `HashSet` first), so `document_frequencies[id]` is the
number of documents whose token list contains `vocabulary[id]`. -/
noncomputable def build_tfidf_index (names : List String) : TfIdfIndex :=
  if names.isEmpty then ⟨[], [], [], [], 0⟩
  else
    let total_docs := names.length
    let vocabulary := buildVocab names
    let document_frequencies : List ℤ :=
      vocabulary.map (fun w => (names.countP (fun d => decide (w ∈ tokenize d)) : ℤ))
    let tfidf_vectors :=
      names.map (fun d => tfidfVector vocabulary document_frequencies total_docs (tokenize d))
    ⟨vocabulary, document_frequencies, tfidf_vectors, names, total_docs⟩

/-- The deduplicated vocabulary ids of a token sequence (the `unique_tokens`
`HashSet` of `add_entity` / `remove_entity`). -/
def tokenIds (vocab : List (List Char)) (tokens : List (List Char)) : List ℕ :=
  (tokens.filterMap (fun t => firstIdx? vocab t)).dedup

/-- Add `delta` to the document-frequency slots listed in `ids` (the
`document_frequencies[word_id] += delta` loops of `add_entity` and
`remove_entity`). -/
def bumpAt (dfs : List ℤ) (ids : List ℕ) (delta : ℤ) : List ℤ :=
  ids.foldl (fun d i => d.set i (d.getD i 0 + delta)) dfs

/-- One step of `recalculate_idf_for_new_words`: if the vector holds an entry
for `id`, multiply the *stored weight* (`tf_val` in the source, which is
already a tf·idf product) by the current idf of `id`. -/
noncomputable def rescaleEntry (dfs : List ℤ) (total : ℕ) (id : ℕ)
    (vec : List (ℕ × ℝ)) : List (ℕ × ℝ) :=
  vec.map (fun p => if p.1 = id then (p.1, p.2 * idf total (dfs.getD id 0)) else p)

/-- `TfIdfIndex::recalculate_idf_for_new_words` from tfidf.rs: for every
vector and every newly created word id, rescale the entry with that id (if
present) by the freshly computed idf. -/
noncomputable def recalculate_idf_for_new_words (idx : TfIdfIndex)
    (new_words : List ℕ) : TfIdfIndex :=
  { idx with tfidf_vectors :=
      idx.tfidf_vectors.map (fun v =>
        new_words.foldl
          (fun v id => rescaleEntry idx.document_frequencies idx.total_docs id v) v) }

/-- `TfIdfIndex::add_entity` from tfidf.rs.  The vocabulary-insertion loop
appends the unseen tokens in order, pushes a `0.0` document-frequency slot
for each, and records their ids (`old_len, old_len+1, ...`) in `new_words`;
then all distinct token ids of the document get their frequency incremented,
`total_docs` is incremented, the new vector is computed against the updated
statistics and pushed together with the name, and finally
`recalculate_idf_for_new_words` runs when any word is new. -/
noncomputable def TfIdfIndex.add_entity (idx : TfIdfIndex)
    (entity_name : String) : TfIdfIndex :=
  if entity_name ∈ idx.entity_names then idx
  else
    let tokens := tokenize entity_name
    let vocabulary := extendVocab idx.vocabulary tokens
    let grown := vocabulary.length - idx.vocabulary.length
    let new_words := List.range' idx.vocabulary.length grown
    let dfs0 := idx.document_frequencies ++ List.replicate grown 0
    let document_frequencies := bumpAt dfs0 (tokenIds vocabulary tokens) 1
    let total_docs := idx.total_docs + 1
    let vec := tfidfVector vocabulary document_frequencies total_docs tokens
    let idx1 : TfIdfIndex :=
      ⟨vocabulary, document_frequencies, idx.tfidf_vectors ++ [vec],
        idx.entity_names ++ [entity_name], total_docs⟩
    if new_words.isEmpty then idx1 else recalculate_idf_for_new_words idx1 new_words

/-- `TfIdfIndex::recalculate_all_idf` from tfidf.rs: every vector is cleared
and rebuilt from its entity's tokens against the current statistics (the
source walks the index-aligned `tfidf_vectors` and `entity_names` lists in
parallel). -/
noncomputable def recalculate_all_idf (idx : TfIdfIndex) : TfIdfIndex :=
  { idx with tfidf_vectors :=
      idx.entity_names.map (fun n =>
        tfidfVector idx.vocabulary idx.document_frequencies idx.total_docs (tokenize n)) }

/-- `TfIdfIndex::remove_entity` from tfidf.rs: locate the first position of
the name; if present, decrement the document frequency of each distinct token
id of the name, remove the name and its vector, decrement `total_docs`, and
recompute every remaining vector; return whether a name was removed. -/
noncomputable def TfIdfIndex.remove_entity (idx : TfIdfIndex)
    (entity_name : String) : Bool × TfIdfIndex :=
  match firstIdx? idx.entity_names entity_name with
  | some i =>
    let tokens := tokenize entity_name
    let document_frequencies :=
      bumpAt idx.document_frequencies (tokenIds idx.vocabulary tokens) (-1)
    let idx1 : TfIdfIndex :=
      ⟨idx.vocabulary, document_frequencies, idx.tfidf_vectors.eraseIdx i,
        idx.entity_names.eraseIdx i, idx.total_docs - 1⟩
    (true, recalculate_all_idf idx1)
  | none => (false, idx)

/-- `FUZZY_MATCH_THRESHOLD` from tfidf.rs. -/
noncomputable def FUZZY_MATCH_THRESHOLD : ℝ := 0.3

/-- The combined candidate score of `find_fuzzy_match_in_index`:
`string_score * 0.7 + tfidf_score * 0.3`, where the TF-IDF part is `0.0` for
an empty vocabulary and otherwise the cosine similarity between the query's
freshly computed vector and the candidate's stored vector (looked up at the
first position of the candidate name, `position(..).unwrap()` in the
source). -/
noncomputable def combinedScore (input : String) (idx : TfIdfIndex)
    (name : String) : ℝ :=
  let string_score : ℝ := ((calculate_string_similarity input name : ℚ) : ℝ)
  let tfidf_score : ℝ :=
    if idx.vocabulary.isEmpty then 0
    else
      let input_tfidf :=
        tfidfVector idx.vocabulary idx.document_frequencies idx.total_docs (tokenize input)
      let doc_vector := idx.tfidf_vectors.getD ((firstIdx? idx.entity_names name).getD 0) []
      cosine_similarity input_tfidf doc_vector
  string_score * 0.7 + tfidf_score * 0.3

/-- The candidate list of `find_fuzzy_match_in_index`: every entity name
whose combined score reaches `FUZZY_MATCH_THRESHOLD`, paired with its score,
in entity order. -/
noncomputable def matchList (input : String) (idx : TfIdfIndex) :
    List (String × ℝ) :=
  idx.entity_names.filterMap (fun name =>
    if FUZZY_MATCH_THRESHOLD ≤ combinedScore input idx name then
      some (name, combinedScore input idx name)
    else none)

/-- `find_fuzzy_match_in_index` from tfidf.rs: an exact (case-sensitive,
unnormalized) membership test on the entity names short-circuits with an
exact match of score `1.0`; otherwise the thresholded candidates are sorted
by descending score (a stable sort, as `sort_by`) and the head, if any, is
the suggestion. -/
noncomputable def find_fuzzy_match_in_index (input : String)
    (idx : TfIdfIndex) : FuzzyMatchResult :=
  if input ∈ idx.entity_names then ⟨true, some input, some 1⟩
  else
    let sorted := (matchList input idx).mergeSort (fun a b => decide (b.2 ≤ a.2))
    ⟨false, sorted.head?.map Prod.fst, sorted.head?.map Prod.snd⟩

/-- Terminal decisions of the creation-intent arm of the resolution
protocol. -/
inductive CreationOutcome : Type where
  | proceed : String → CreationOutcome
  | createNew : String → CreationOutcome
deriving DecidableEq

/-- The creation-intent name decision, embedded from the `match fuzzy_result`
blocks of `Database::set_config` and `Database::create_task` (database.rs):
an exact match proceeds with the existing name; a suggestion with a score at
or above `FUZZY_MATCH_THRESHOLD` is confirmed interactively - confirmed
proceeds with the suggested existing name, declined creates a new entity
under the original input; a sub-threshold suggestion or no suggestion at all
creates a new entity under the original input.  (`create_task`'s exact arm
reuses the input name, which on the resolver's exact branch equals the stored
suggested name, so both callers implement the same decision.)  `proceed`
means the operation targets the existing entity: the callers then take the
update path and never insert a row nor call `add_entity`. -/
noncomputable def creation_decision (input : String) (r : FuzzyMatchResult)
    (confirm : Bool) : CreationOutcome :=
  match r with
  | ⟨true, some name, _⟩ => CreationOutcome.proceed name
  | ⟨_, some suggestion, some score⟩ =>
    if FUZZY_MATCH_THRESHOLD ≤ score then
      if confirm then CreationOutcome.proceed suggestion
      else CreationOutcome.createNew input
    else CreationOutcome.createNew input
  | _ => CreationOutcome.createNew input

/-- Index states reachable by the mutation protocol: built once from a name
list, then mutated by `add_entity` / `remove_entity`. -/
inductive Reachable : TfIdfIndex → Prop where
  | build : ∀ names, Reachable (build_tfidf_index names)
  | add : ∀ idx name, Reachable idx → Reachable (idx.add_entity name)
  | remove : ∀ idx name, Reachable idx → Reachable (idx.remove_entity name).2

/-- The structural invariants of an index: the name list, vector list and
`total_docs` agree; the document-frequency table is aligned with the
vocabulary; vocabulary entries are pairwise distinct; every token of an
indexed name is in the vocabulary; and the frequency of vocabulary id `id`
is the number of indexed names whose token list contains the token
`vocabulary[id]`. -/
structure Inv (idx : TfIdfIndex) : Prop where
  len_vec : idx.entity_names.length = idx.tfidf_vectors.length
  len_docs : idx.entity_names.length = idx.total_docs
  df_len : idx.document_frequencies.length = idx.vocabulary.length
  vocab_nodup : idx.vocabulary.Nodup
  tokens_sub : ∀ n ∈ idx.entity_names, ∀ t ∈ tokenize n, t ∈ idx.vocabulary
  df_count : ∀ id, id < idx.vocabulary.length →
    idx.document_frequencies.getD id 0 =
      (idx.entity_names.countP
        (fun n => decide (idx.vocabulary.getD id [] ∈ tokenize n)) : ℤ)

/-! ## Generic list lemmas -/

theorem firstIdx?_eq_none_iff {α : Type} [DecidableEq α] (l : List α) (a : α) :
    firstIdx? l a = none ↔ a ∉ l := by
  have hmap : ∀ o : Option ℕ, Option.map (· + 1) o = none ↔ o = none := by
    intro o
    cases o <;> simp
  induction l with
  | nil => simp [firstIdx?]
  | cons x xs ih =>
    by_cases h : x = a
    · simp [firstIdx?, h]
    · rw [firstIdx?, if_neg h, hmap]
      constructor
      · intro hn hc
        rcases List.mem_cons.mp hc with hc | hc
        · exact h hc.symm
        · exact ih.mp hn hc
      · intro hn
        exact ih.mpr (fun hc => hn (List.mem_cons_of_mem x hc))

theorem firstIdx?_getElem? {α : Type} [DecidableEq α] (l : List α) (a : α) (i : ℕ)
    (h : firstIdx? l a = some i) : l[i]? = some a := by
  induction l generalizing i with
  | nil => simp [firstIdx?] at h
  | cons x xs ih =>
    by_cases hx : x = a
    · rw [firstIdx?, if_pos hx] at h
      cases h
      simpa using hx
    · rw [firstIdx?, if_neg hx] at h
      cases hf : firstIdx? xs a with
      | none =>
        rw [hf] at h
        exact Option.noConfusion h
      | some j =>
        rw [hf] at h
        have hji : j + 1 = i := Option.some.inj h
        subst hji
        simpa using ih j hf

theorem firstIdx?_lt_length {α : Type} [DecidableEq α] (l : List α) (a : α) (i : ℕ)
    (h : firstIdx? l a = some i) : i < l.length := by
  have hg := firstIdx?_getElem? l a i h
  exact (List.getElem?_eq_some.mp hg).1

theorem firstIdx?_of_nodup {α : Type} [DecidableEq α] (l : List α) (a : α) (i : ℕ)
    (hnd : l.Nodup) (h : l[i]? = some a) : firstIdx? l a = some i := by
  induction l generalizing i with
  | nil => simp at h
  | cons x xs ih =>
    rcases List.nodup_cons.mp hnd with ⟨hx, hxs⟩
    cases i with
    | zero =>
      simp only [List.getElem?_cons_zero, Option.some.injEq] at h
      simp [firstIdx?, h]
    | succ j =>
      simp only [List.getElem?_cons_succ] at h
      have hmem : a ∈ xs := by
        obtain ⟨hlt, heq⟩ := List.getElem?_eq_some.mp h
        exact heq ▸ List.getElem_mem hlt
      have hne : x ≠ a := fun hc => hx (hc ▸ hmem)
      simp [firstIdx?, if_neg hne, ih j hxs h]

theorem mem_iff_firstIdx? {α : Type} [DecidableEq α] (l : List α) (a : α) :
    a ∈ l ↔ ∃ i, firstIdx? l a = some i := by
  constructor
  · intro h
    cases hf : firstIdx? l a with
    | none => exact absurd h ((firstIdx?_eq_none_iff l a).mp hf)
    | some i => exact ⟨i, rfl⟩
  · rintro ⟨i, hi⟩
    by_contra hc
    rw [(firstIdx?_eq_none_iff l a).mpr hc] at hi
    cases hi

theorem getElem?_set_eq (l : List ℤ) (i j : ℕ) (a : ℤ) :
    (l.set i a)[j]? = if i = j ∧ i < l.length then some a else l[j]? := by
  rw [List.getElem?_set]
  rcases Decidable.em (i = j) with h | h
  · subst h
    by_cases hl : i < l.length
    · simp [hl]
    · simp only [if_pos rfl, if_neg hl, hl, and_false, if_false]
      rw [List.getElem?_eq_none (by omega)]
      simp
  · rw [if_neg h, if_neg (fun hc => h hc.1)]

theorem getD_set_eq (l : List ℤ) (i j : ℕ) (a : ℤ) :
    (l.set i a).getD j 0 = if i = j ∧ i < l.length then a else l.getD j 0 := by
  rw [List.getD_eq_getElem?_getD, List.getD_eq_getElem?_getD, getElem?_set_eq]
  rcases Decidable.em (i = j ∧ i < l.length) with h | h
  · rw [if_pos h, if_pos h]
    rfl
  · rw [if_neg h, if_neg h]

theorem countP_eraseIdx {α : Type} (l : List α) (p : α → Bool) (i : ℕ) (a : α)
    (h : l[i]? = some a) :
    l.countP p = (l.eraseIdx i).countP p + (if p a then 1 else 0) := by
  induction l generalizing i with
  | nil => simp at h
  | cons x xs ih =>
    cases i with
    | zero =>
      simp only [List.getElem?_cons_zero, Option.some.injEq] at h
      subst h
      rw [List.eraseIdx_cons_zero, List.countP_cons]
    | succ j =>
      simp only [List.getElem?_cons_succ] at h
      simp only [List.eraseIdx_cons_succ, List.countP_cons, ih j h]
      split <;> omega

theorem not_mem_eraseIdx_of_firstIdx? {α : Type} [DecidableEq α] (l : List α)
    (a : α) (i : ℕ) (hnd : l.Nodup) (h : firstIdx? l a = some i) :
    a ∉ l.eraseIdx i := by
  induction l generalizing i with
  | nil => simp [firstIdx?] at h
  | cons x xs ih =>
    rcases List.nodup_cons.mp hnd with ⟨hx, hxs⟩
    by_cases hxa : x = a
    · rw [firstIdx?, if_pos hxa] at h
      have h0 : (0 : ℕ) = i := Option.some.inj h
      subst h0
      subst hxa
      simpa [List.eraseIdx] using hx
    · rw [firstIdx?, if_neg hxa] at h
      cases hf : firstIdx? xs a with
      | none =>
        rw [hf] at h
        exact Option.noConfusion h
      | some j =>
        rw [hf] at h
        have hji : j + 1 = i := Option.some.inj h
        subst hji
        simp only [List.eraseIdx_cons_succ, List.mem_cons]
        rintro (hc | hc)
        · exact hxa hc.symm
        · exact ih j hxs hf hc

/-! ## Vocabulary-extension lemmas -/

theorem mem_extendVocab (v toks : List (List Char)) (a : List Char) :
    a ∈ extendVocab v toks ↔ a ∈ v ∨ a ∈ toks := by
  induction toks generalizing v with
  | nil => simp [extendVocab]
  | cons t ts ih =>
    by_cases h : t ∈ v
    · rw [show extendVocab v (t :: ts) = extendVocab v ts from by
        simp [extendVocab, List.foldl_cons, if_pos h], ih]
      constructor
      · rintro (hv | hts)
        · exact Or.inl hv
        · exact Or.inr (List.mem_cons_of_mem t hts)
      · rintro (hv | hts)
        · exact Or.inl hv
        · rcases List.mem_cons.mp hts with rfl | hts
          · exact Or.inl h
          · exact Or.inr hts
    · rw [show extendVocab v (t :: ts) = extendVocab (v ++ [t]) ts from by
        simp [extendVocab, List.foldl_cons, if_neg h], ih]
      simp only [List.mem_append, List.mem_singleton, List.mem_cons]
      tauto

theorem extendVocab_eq_append (v toks : List (List Char)) :
    ∃ ext, extendVocab v toks = v ++ ext ∧ ∀ t ∈ ext, t ∈ toks := by
  induction toks generalizing v with
  | nil => exact ⟨[], by simp [extendVocab], by simp⟩
  | cons t ts ih =>
    by_cases h : t ∈ v
    · obtain ⟨ext, he, hm⟩ := ih v
      refine ⟨ext, ?_, fun x hx => List.mem_cons_of_mem t (hm x hx)⟩
      rw [show extendVocab v (t :: ts) = extendVocab v ts from by
        simp [extendVocab, List.foldl_cons, if_pos h], he]
    · obtain ⟨ext, he, hm⟩ := ih (v ++ [t])
      refine ⟨t :: ext, ?_, ?_⟩
      · rw [show extendVocab v (t :: ts) = extendVocab (v ++ [t]) ts from by
          simp [extendVocab, List.foldl_cons, if_neg h], he]
        simp
      · intro x hx
        rcases List.mem_cons.mp hx with rfl | hx
        · exact List.mem_cons_self x ts
        · exact List.mem_cons_of_mem t (hm x hx)

theorem nodup_extendVocab (v toks : List (List Char)) (h : v.Nodup) :
    (extendVocab v toks).Nodup := by
  induction toks generalizing v with
  | nil => simpa [extendVocab]
  | cons t ts ih =>
    by_cases ht : t ∈ v
    · rw [show extendVocab v (t :: ts) = extendVocab v ts from by
        simp [extendVocab, List.foldl_cons, if_pos ht]]
      exact ih v h
    · rw [show extendVocab v (t :: ts) = extendVocab (v ++ [t]) ts from by
        simp [extendVocab, List.foldl_cons, if_neg ht]]
      refine ih (v ++ [t]) ?_
      have : (v ++ [t]).Nodup ↔ (t :: v).Nodup :=
        (List.perm_append_singleton t v).nodup_iff
      rw [this, List.nodup_cons]
      exact ⟨ht, h⟩

theorem extendVocab_length (v toks : List (List Char)) :
    v.length ≤ (extendVocab v toks).length := by
  obtain ⟨ext, he, -⟩ := extendVocab_eq_append v toks
  simp [he]

/-! ## Frequency-bump lemmas -/

theorem bumpAt_length (dfs : List ℤ) (ids : List ℕ) (delta : ℤ) :
    (bumpAt dfs ids delta).length = dfs.length := by
  induction ids generalizing dfs with
  | nil => simp [bumpAt]
  | cons i is ih =>
    simp only [bumpAt, List.foldl_cons]
    rw [show List.foldl (fun d i => d.set i (d.getD i 0 + delta)) (dfs.set i (dfs.getD i 0 + delta)) is
        = bumpAt (dfs.set i (dfs.getD i 0 + delta)) is delta from rfl, ih]
    simp

theorem bumpAt_getD (dfs : List ℤ) (ids : List ℕ) (delta : ℤ) (j : ℕ)
    (hnd : ids.Nodup) (hb : ∀ i ∈ ids, i < dfs.length) :
    (bumpAt dfs ids delta).getD j 0 =
      dfs.getD j 0 + (if j ∈ ids then delta else 0) := by
  induction ids generalizing dfs with
  | nil => simp [bumpAt]
  | cons i is ih =>
    rcases List.nodup_cons.mp hnd with ⟨hi, his⟩
    have hstep : bumpAt dfs (i :: is) delta
        = bumpAt (dfs.set i (dfs.getD i 0 + delta)) is delta := rfl
    rw [hstep, ih (dfs.set i (dfs.getD i 0 + delta)) his
      (fun k hk => by simpa using hb k (List.mem_cons_of_mem i hk))]
    rw [getD_set_eq]
    by_cases hji : i = j
    · subst hji
      rw [if_pos ⟨rfl, hb i (List.mem_cons_self i is)⟩]
      rw [if_neg hi, if_pos (List.mem_cons_self i is)]
      ring
    · rw [if_neg (fun hc => hji hc.1)]
      by_cases hjs : j ∈ is
      · rw [if_pos hjs, if_pos (List.mem_cons_of_mem i hjs)]
      · rw [if_neg hjs, if_neg ?_]
        intro hc
        rcases List.mem_cons.mp hc with hc | hc
        · exact hji hc.symm
        · exact hjs hc

/-! ## Token-id lemmas -/

theorem tokenIds_nodup (vocab toks : List (List Char)) :
    (tokenIds vocab toks).Nodup := List.nodup_dedup _

theorem mem_tokenIds_iff (vocab toks : List (List Char)) (i : ℕ) :
    i ∈ tokenIds vocab toks ↔ ∃ t ∈ toks, firstIdx? vocab t = some i := by
  simp [tokenIds, List.mem_dedup, List.mem_filterMap]

theorem tokenIds_lt (vocab toks : List (List Char)) (i : ℕ)
    (h : i ∈ tokenIds vocab toks) : i < vocab.length := by
  obtain ⟨t, -, ht⟩ := (mem_tokenIds_iff vocab toks i).mp h
  exact firstIdx?_lt_length vocab t i ht

theorem mem_tokenIds_getD (vocab toks : List (List Char)) (i : ℕ)
    (hnd : vocab.Nodup) (hi : i < vocab.length) :
    i ∈ tokenIds vocab toks ↔ vocab.getD i [] ∈ toks := by
  rw [mem_tokenIds_iff]
  have hget : vocab[i]? = some (vocab.getD i []) := by
    simp [List.getD, List.getElem?_eq_getElem hi]
  constructor
  · rintro ⟨t, htt, ht⟩
    have := firstIdx?_getElem? vocab t i ht
    rw [hget] at this
    cases this
    exact htt
  · intro hmem
    exact ⟨vocab.getD i [], hmem, firstIdx?_of_nodup vocab _ i hnd hget⟩

/-! ## Field lemmas for the index operations -/

theorem build_entity_names (names : List String) :
    (build_tfidf_index names).entity_names = names := by
  cases names with
  | nil => simp [build_tfidf_index]
  | cons a l => simp [build_tfidf_index]

theorem build_total_docs (names : List String) :
    (build_tfidf_index names).total_docs = names.length := by
  cases names with
  | nil => simp [build_tfidf_index]
  | cons a l => simp [build_tfidf_index]

theorem add_entity_of_mem (idx : TfIdfIndex) (n : String)
    (h : n ∈ idx.entity_names) : idx.add_entity n = idx := by
  rw [TfIdfIndex.add_entity, if_pos h]

theorem add_entity_entity_names (idx : TfIdfIndex) (n : String)
    (h : n ∉ idx.entity_names) :
    (idx.add_entity n).entity_names = idx.entity_names ++ [n] := by
  simp only [TfIdfIndex.add_entity, if_neg h]
  split
  · rfl
  · rfl

theorem add_entity_vocabulary (idx : TfIdfIndex) (n : String)
    (h : n ∉ idx.entity_names) :
    (idx.add_entity n).vocabulary = extendVocab idx.vocabulary (tokenize n) := by
  simp only [TfIdfIndex.add_entity, if_neg h]
  split
  · rfl
  · rfl

theorem add_entity_total_docs (idx : TfIdfIndex) (n : String)
    (h : n ∉ idx.entity_names) :
    (idx.add_entity n).total_docs = idx.total_docs + 1 := by
  simp only [TfIdfIndex.add_entity, if_neg h]
  split
  · rfl
  · rfl

theorem add_entity_document_frequencies (idx : TfIdfIndex) (n : String)
    (h : n ∉ idx.entity_names) :
    (idx.add_entity n).document_frequencies =
      bumpAt
        (idx.document_frequencies ++
          List.replicate ((extendVocab idx.vocabulary (tokenize n)).length - idx.vocabulary.length) 0)
        (tokenIds (extendVocab idx.vocabulary (tokenize n)) (tokenize n)) 1 := by
  simp only [TfIdfIndex.add_entity, if_neg h]
  split
  · rfl
  · rfl

theorem add_entity_vectors_length (idx : TfIdfIndex) (n : String)
    (h : n ∉ idx.entity_names) :
    (idx.add_entity n).tfidf_vectors.length = idx.tfidf_vectors.length + 1 := by
  simp only [TfIdfIndex.add_entity, if_neg h]
  split
  · simp
  · simp [recalculate_idf_for_new_words]

theorem remove_entity_of_none (idx : TfIdfIndex) (n : String)
    (h : firstIdx? idx.entity_names n = none) :
    idx.remove_entity n = (false, idx) := by
  simp only [TfIdfIndex.remove_entity, h]

theorem remove_entity_of_some (idx : TfIdfIndex) (n : String) (i : ℕ)
    (h : firstIdx? idx.entity_names n = some i) :
    idx.remove_entity n =
      (true, recalculate_all_idf
        ⟨idx.vocabulary,
         bumpAt idx.document_frequencies (tokenIds idx.vocabulary (tokenize n)) (-1),
         idx.tfidf_vectors.eraseIdx i, idx.entity_names.eraseIdx i,
         idx.total_docs - 1⟩) := by
  simp only [TfIdfIndex.remove_entity, h]

theorem exact_match_eq (input : String) (idx : TfIdfIndex) :
    (find_fuzzy_match_in_index input idx).exact_match
      = decide (input ∈ idx.entity_names) := by
  rw [find_fuzzy_match_in_index]
  by_cases h : input ∈ idx.entity_names
  · rw [if_pos h]
    simp [h]
  · rw [if_neg h]
    simp [h]

theorem find_fuzzy_of_not_mem (input : String) (idx : TfIdfIndex)
    (h : input ∉ idx.entity_names) :
    find_fuzzy_match_in_index input idx =
      ⟨false,
       ((matchList input idx).mergeSort (fun a b => decide (b.2 ≤ a.2))).head?.map Prod.fst,
       ((matchList input idx).mergeSort (fun a b => decide (b.2 ≤ a.2))).head?.map Prod.snd⟩ := by
  rw [find_fuzzy_match_in_index, if_neg h]

theorem mem_matchList_iff (input : String) (idx : TfIdfIndex) (name : String)
    (s : ℝ) :
    (name, s) ∈ matchList input idx ↔
      name ∈ idx.entity_names ∧ s = combinedScore input idx name ∧
        FUZZY_MATCH_THRESHOLD ≤ s := by
  rw [matchList, List.mem_filterMap]
  constructor
  · rintro ⟨n, hn, hf⟩
    by_cases hθ : FUZZY_MATCH_THRESHOLD ≤ combinedScore input idx n
    · rw [if_pos hθ] at hf
      have h1 : n = name := congrArg Prod.fst (Option.some.inj hf)
      have h2 : combinedScore input idx n = s := congrArg Prod.snd (Option.some.inj hf)
      subst h1
      exact ⟨hn, h2.symm, h2 ▸ hθ⟩
    · rw [if_neg hθ] at hf
      exact Option.noConfusion hf
  · rintro ⟨hmem, rfl, hθ⟩
    exact ⟨name, hmem, by rw [if_pos hθ]⟩

theorem matchList_eq_nil (input : String) (idx : TfIdfIndex)
    (h : ∀ n ∈ idx.entity_names,
      combinedScore input idx n < FUZZY_MATCH_THRESHOLD) :
    matchList input idx = [] := by
  rw [matchList, List.filterMap_eq_nil_iff]
  intro n hn
  rw [if_neg (not_le.mpr (h n hn))]

/-! ## Claim theorems -/

/-- C3: under creation intent, a `Suggestion` at or above the threshold that
the confirmer accepts makes the operation proceed with the suggested existing
name (no new entity); a declined confirmation creates a new entity under the
original input name; a `NoMatch` outcome creates a new entity under the
original input name. -/
theorem creation_intent_protocol (input suggestion : String) (score : ℝ)
    (h : FUZZY_MATCH_THRESHOLD ≤ score) :
    creation_decision input ⟨false, some suggestion, some score⟩ true
        = CreationOutcome.proceed suggestion
      ∧ creation_decision input ⟨false, some suggestion, some score⟩ false
        = CreationOutcome.createNew input
      ∧ (∀ confirm, creation_decision input ⟨false, none, none⟩ confirm
        = CreationOutcome.createNew input) := by
  refine ⟨?_, ?_, ?_⟩
  · simp [creation_decision, h]
  · simp [creation_decision, h]
  · intro confirm
    simp [creation_decision]

/-- Witness for C3 at a concrete suggestion of score `1/2`. -/
theorem creation_intent_protocol_witness :
    FUZZY_MATCH_THRESHOLD ≤ (1/2 : ℝ)
      ∧ (creation_decision ("tsk") ⟨false, some ("task"), some (1/2 : ℝ)⟩ true
          = CreationOutcome.proceed ("task")
        ∧ creation_decision ("tsk") ⟨false, some ("task"), some (1/2 : ℝ)⟩ false
          = CreationOutcome.createNew ("tsk")
        ∧ (∀ confirm, creation_decision ("tsk") ⟨false, none, none⟩ confirm
          = CreationOutcome.createNew ("tsk"))) :=
  ⟨by norm_num [FUZZY_MATCH_THRESHOLD],
   creation_intent_protocol ("tsk") ("task") (1/2)
     (by norm_num [FUZZY_MATCH_THRESHOLD])⟩

/-- C6: for a non-empty name list, `build` records `total_docs = len(names)`,
resolving any member verbatim yields an exact match, and exact matching is
precisely case-sensitive, unnormalized membership in the indexed names. -/
theorem build_resolve_exact (names : List String) (h : names ≠ []) :
    (build_tfidf_index names).total_docs = names.length
      ∧ (∀ n ∈ names,
          (find_fuzzy_match_in_index n (build_tfidf_index names)).exact_match = true)
      ∧ (∀ input : String,
          (find_fuzzy_match_in_index input (build_tfidf_index names)).exact_match = true
            ↔ input ∈ names) := by
  refine ⟨build_total_docs names, ?_, ?_⟩
  · intro n hn
    rw [exact_match_eq, build_entity_names]
    exact decide_eq_true hn
  · intro input
    rw [exact_match_eq, build_entity_names]
    simp

/-- Witness for C6 on the singleton list. -/
theorem build_resolve_exact_witness :
    (["a"] : List String) ≠ []
      ∧ ((build_tfidf_index ["a"]).total_docs = (["a"] : List String).length
        ∧ (∀ n ∈ (["a"] : List String),
            (find_fuzzy_match_in_index n (build_tfidf_index ["a"])).exact_match = true)
        ∧ (∀ input : String,
            (find_fuzzy_match_in_index input (build_tfidf_index ["a"])).exact_match = true
              ↔ input ∈ (["a"] : List String))) :=
  ⟨by decide, build_resolve_exact ["a"] (by decide)⟩

/-- C8: `add_entity` is idempotent: a second `add_entity` with the same name
is a no-op, and more generally adding a name that is already present (by
exact string match) leaves the index unchanged. -/
theorem add_entity_idempotent (idx : TfIdfIndex) (name : String) :
    (idx.add_entity name).add_entity name = idx.add_entity name
      ∧ (name ∈ idx.entity_names → idx.add_entity name = idx) := by
  constructor
  · have hmem : name ∈ (idx.add_entity name).entity_names := by
      by_cases h : name ∈ idx.entity_names
      · rw [add_entity_of_mem idx name h]
        exact h
      · rw [add_entity_entity_names idx name h]
        simp
    generalize hA : idx.add_entity name = A at hmem ⊢
    rw [TfIdfIndex.add_entity, if_pos hmem]
  · exact add_entity_of_mem idx name

/-- Witness for C8: the membership hypothesis discharged on a concrete
index. -/
theorem add_entity_idempotent_witness :
    ("a" ∈ (build_tfidf_index ["a"]).entity_names)
      ∧ (build_tfidf_index ["a"]).add_entity ("a") = build_tfidf_index ["a"] :=
  ⟨by decide, (add_entity_idempotent (build_tfidf_index ["a"]) ("a")).2 (by decide)⟩

/-- C2 counterexample: on two empty strings `calculate_string_similarity`
returns `0.8` through the first substring branch (the empty string is a
substring of every string, so `target.contains(input)` holds), not `0.0`;
the `max_len == 0` branch of the source is unreachable. -/
theorem string_similarity_both_empty :
    calculate_string_similarity ("") ("") = 8/10
      ∧ calculate_string_similarity ("") ("") ≠ 0 := by
  have h : calculate_string_similarity ("") ("") = 8/10 := by
    rw [calculate_string_similarity, if_pos (by decide)]
  refine ⟨h, ?_⟩
  rw [h]
  norm_num

/-- C2 amended: `calculate_string_similarity` returns `0.8` when the
lower-cased target contains the lower-cased input as a substring (this
includes the case of two empty strings); `0.6` when the lower-cased input
contains the lower-cased target and the first case fails; otherwise both
lower-cased strings are necessarily non-empty, so the maximum length is
positive and the result is the two-cursor overlap count divided by that
maximum (the `0.0` branch for two empty strings is unreachable). -/
theorem string_similarity_cases (input target : String) :
    (input.toList.map Char.toLower <:+: target.toList.map Char.toLower →
      calculate_string_similarity input target = 8/10)
    ∧ (¬(input.toList.map Char.toLower <:+: target.toList.map Char.toLower) →
        target.toList.map Char.toLower <:+: input.toList.map Char.toLower →
      calculate_string_similarity input target = 6/10)
    ∧ (¬(input.toList.map Char.toLower <:+: target.toList.map Char.toLower) →
        ¬(target.toList.map Char.toLower <:+: input.toList.map Char.toLower) →
      0 < max (input.toList.map Char.toLower).length
            (target.toList.map Char.toLower).length
      ∧ calculate_string_similarity input target =
          ((simLoop (input.toList.map Char.toLower)
              (target.toList.map Char.toLower) : ℕ) : ℚ) /
            ((max (input.toList.map Char.toLower).length
                (target.toList.map Char.toLower).length : ℕ) : ℚ)) := by
  refine ⟨?_, ?_, ?_⟩
  · intro h1
    rw [calculate_string_similarity, if_pos h1]
  · intro h1 h2
    rw [calculate_string_similarity, if_neg h1, if_pos h2]
  · intro h1 h2
    have hne : input.toList.map Char.toLower ≠ [] := by
      intro hc
      exact h1 (hc ▸ List.nil_infix)
    have hpos : 0 < (input.toList.map Char.toLower).length :=
      List.length_pos.mpr hne
    have hmax : 0 < max (input.toList.map Char.toLower).length
        (target.toList.map Char.toLower).length :=
      lt_of_lt_of_le hpos (le_max_left _ _)
    refine ⟨hmax, ?_⟩
    rw [calculate_string_similarity, if_neg h1, if_neg h2,
      if_neg (Nat.pos_iff_ne_zero.mp hmax)]

/-- Witness for C2's amended statement: the substring branch on concrete
strings. -/
theorem string_similarity_cases_witness :
    ("ell".toList.map Char.toLower <:+: "hello".toList.map Char.toLower)
      ∧ calculate_string_similarity ("ell") ("hello") = 8/10 :=
  ⟨by decide, (string_similarity_cases ("ell") ("hello")).1 (by decide)⟩

/-- C7: with pairwise-distinct entity names, `remove_entity` returns `true`
exactly when the name is present; removing it again returns `false`; and
after a successful removal, resolving the name is never an exact match. -/
theorem remove_entity_spec (idx : TfIdfIndex) (name : String)
    (hnd : idx.entity_names.Nodup) :
    ((idx.remove_entity name).1 = true ↔ name ∈ idx.entity_names)
      ∧ ((idx.remove_entity name).1 = true →
          (((idx.remove_entity name).2.remove_entity name).1 = false
            ∧ (find_fuzzy_match_in_index name
                (idx.remove_entity name).2).exact_match = false)) := by
  cases hf : firstIdx? idx.entity_names name with
  | none =>
    rw [remove_entity_of_none idx name hf]
    have hnm : name ∉ idx.entity_names := (firstIdx?_eq_none_iff _ _).mp hf
    constructor
    · simp [hnm]
    · intro hc
      exact absurd hc (by simp)
  | some i =>
    rw [remove_entity_of_some idx name i hf]
    have hmem : name ∈ idx.entity_names :=
      (mem_iff_firstIdx? _ _).mpr ⟨i, hf⟩
    have hnames : (recalculate_all_idf
        ⟨idx.vocabulary,
         bumpAt idx.document_frequencies (tokenIds idx.vocabulary (tokenize name)) (-1),
         idx.tfidf_vectors.eraseIdx i, idx.entity_names.eraseIdx i,
         idx.total_docs - 1⟩).entity_names = idx.entity_names.eraseIdx i := rfl
    have hgone : name ∉ idx.entity_names.eraseIdx i :=
      not_mem_eraseIdx_of_firstIdx? idx.entity_names name i hnd hf
    constructor
    · simp [hmem]
    · intro _
      constructor
      · rw [remove_entity_of_none _ name (by
          rw [hnames]
          exact (firstIdx?_eq_none_iff _ _).mpr hgone)]
      · rw [exact_match_eq, hnames]
        exact decide_eq_false hgone

/-- Witness for C7 on a concrete two-element index. -/
theorem remove_entity_spec_witness :
    (build_tfidf_index ["a","b"]).entity_names.Nodup
      ∧ (((build_tfidf_index ["a","b"]).remove_entity ("a")).1 = true
          ↔ ("a") ∈ (build_tfidf_index ["a","b"]).entity_names) :=
  ⟨by decide,
   (remove_entity_spec (build_tfidf_index ["a","b"]) ("a") (by decide)).1⟩

/-- C9: for any index reachable from a `build` by `add_entity` and
`remove_entity` calls, the incrementally maintained index and a fresh
`build` over its current name list agree on every exact-match query. -/
theorem incremental_rebuild_exact_agree (idx : TfIdfIndex)
    (h : Reachable idx) : ∀ input : String,
    (find_fuzzy_match_in_index input
        (build_tfidf_index idx.entity_names)).exact_match
      = (find_fuzzy_match_in_index input idx).exact_match := by
  intro input
  rw [exact_match_eq, exact_match_eq, build_entity_names]

/-- Witness for C9 on an index reached by one `add_entity` call. -/
theorem incremental_rebuild_exact_agree_witness :
    Reachable ((build_tfidf_index ["a","b"]).add_entity ("c"))
      ∧ (find_fuzzy_match_in_index ("c")
            (build_tfidf_index
              ((build_tfidf_index ["a","b"]).add_entity ("c")).entity_names)).exact_match
        = (find_fuzzy_match_in_index ("c")
            ((build_tfidf_index ["a","b"]).add_entity ("c"))).exact_match :=
  ⟨Reachable.add _ ("c") (Reachable.build ["a","b"]),
   incremental_rebuild_exact_agree _
     (Reachable.add _ ("c") (Reachable.build ["a","b"])) ("c")⟩

/-! ## The structural invariant is established by build and preserved by the
mutations -/

theorem mem_foldl_extendVocab (docs : List String) (v : List (List Char))
    (a : List Char) :
    a ∈ docs.foldl (fun v doc => extendVocab v (tokenize doc)) v
      ↔ a ∈ v ∨ ∃ d ∈ docs, a ∈ tokenize d := by
  induction docs generalizing v with
  | nil => simp
  | cons d ds ih =>
    rw [List.foldl_cons, ih, mem_extendVocab]
    constructor
    · rintro ((hv | hd) | ⟨x, hx, hax⟩)
      · exact Or.inl hv
      · exact Or.inr ⟨d, List.mem_cons_self d ds, hd⟩
      · exact Or.inr ⟨x, List.mem_cons_of_mem d hx, hax⟩
    · rintro (hv | ⟨x, hx, hax⟩)
      · exact Or.inl (Or.inl hv)
      · rcases List.mem_cons.mp hx with rfl | hx
        · exact Or.inl (Or.inr hax)
        · exact Or.inr ⟨x, hx, hax⟩

theorem nodup_foldl_extendVocab (docs : List String) (v : List (List Char))
    (h : v.Nodup) :
    (docs.foldl (fun v doc => extendVocab v (tokenize doc)) v).Nodup := by
  induction docs generalizing v with
  | nil => simpa
  | cons d ds ih => exact ih (extendVocab v (tokenize d)) (nodup_extendVocab _ _ h)

theorem buildVocab_nodup (docs : List String) : (buildVocab docs).Nodup :=
  nodup_foldl_extendVocab docs [] List.nodup_nil

theorem mem_buildVocab (docs : List String) (a : List Char) :
    a ∈ buildVocab docs ↔ ∃ d ∈ docs, a ∈ tokenize d := by
  rw [buildVocab, mem_foldl_extendVocab]
  simp

theorem inv_build (names : List String) : Inv (build_tfidf_index names) := by
  cases names with
  | nil =>
    refine ⟨?_, ?_, ?_, ?_, ?_, ?_⟩ <;> simp [build_tfidf_index]
  | cons a l =>
    have hne : ¬(a :: l).isEmpty := by simp
    refine ⟨?_, ?_, ?_, ?_, ?_, ?_⟩
    · simp [build_tfidf_index]
    · simp [build_tfidf_index]
    · simp [build_tfidf_index]
    · simpa [build_tfidf_index] using buildVocab_nodup (a :: l)
    · intro nm hnm t ht
      have : (build_tfidf_index (a :: l)).vocabulary = buildVocab (a :: l) := by
        simp [build_tfidf_index]
      rw [this, mem_buildVocab]
      have hnm' : nm ∈ (a :: l) := by
        simpa [build_tfidf_index] using hnm
      exact ⟨nm, hnm', ht⟩
    · intro id hid
      have hvoc : (build_tfidf_index (a :: l)).vocabulary = buildVocab (a :: l) := by
        simp [build_tfidf_index]
      have hdf : (build_tfidf_index (a :: l)).document_frequencies =
          (buildVocab (a :: l)).map
            (fun w => ((a :: l).countP (fun d => decide (w ∈ tokenize d)) : ℤ)) := by
        simp [build_tfidf_index]
      have hnames : (build_tfidf_index (a :: l)).entity_names = a :: l :=
        build_entity_names (a :: l)
      rw [hvoc] at hid
      rw [hdf, hvoc, hnames]
      have hw : (buildVocab (a :: l))[id]? = some ((buildVocab (a :: l)).getD id []) := by
        rw [List.getD_eq_getElem?_getD, List.getElem?_eq_getElem hid]
        rfl
      rw [List.getD_eq_getElem?_getD, List.getElem?_map, hw]
      rfl

theorem getD_append_left {α : Type} (l₁ l₂ : List α) (d : α) (i : ℕ)
    (h : i < l₁.length) : (l₁ ++ l₂).getD i d = l₁.getD i d := by
  rw [List.getD_eq_getElem?_getD, List.getD_eq_getElem?_getD,
    List.getElem?_append_left h]

theorem getD_append_right {α : Type} (l₁ l₂ : List α) (d : α) (i : ℕ)
    (h : l₁.length ≤ i) : (l₁ ++ l₂).getD i d = l₂.getD (i - l₁.length) d := by
  rw [List.getD_eq_getElem?_getD, List.getD_eq_getElem?_getD,
    List.getElem?_append_right h]

theorem getD_replicate_lt {α : Type} (a d : α) (m i : ℕ) (h : i < m) :
    (List.replicate m a).getD i d = a := by
  rw [List.getD_eq_getElem?_getD, List.getElem?_replicate_of_lt h]
  rfl

theorem getD_of_length_le {α : Type} (l : List α) (d : α) (i : ℕ)
    (h : l.length ≤ i) : l.getD i d = d := by
  rw [List.getD_eq_getElem?_getD, List.getElem?_eq_none h]
  rfl

theorem getD_mem {α : Type} (l : List α) (i : ℕ) (d : α) (h : i < l.length) :
    l.getD i d ∈ l := by
  rw [List.getD_eq_getElem?_getD, List.getElem?_eq_getElem h]
  simpa using List.getElem_mem h

theorem inv_add (idx : TfIdfIndex) (n : String) (hInv : Inv idx) :
    Inv (idx.add_entity n) := by
  by_cases hmem : n ∈ idx.entity_names
  · rw [add_entity_of_mem idx n hmem]
    exact hInv
  · obtain ⟨E, hVE, hEsub⟩ := extendVocab_eq_append idx.vocabulary (tokenize n)
    have hVnd' : (extendVocab idx.vocabulary (tokenize n)).Nodup :=
      nodup_extendVocab _ _ hInv.vocab_nodup
    have hle : idx.vocabulary.length ≤ (extendVocab idx.vocabulary (tokenize n)).length :=
      extendVocab_length _ _
    have hlenV' : (extendVocab idx.vocabulary (tokenize n)).length
        = idx.vocabulary.length + E.length := by
      rw [hVE]
      simp
    refine ⟨?_, ?_, ?_, ?_, ?_, ?_⟩
    · rw [add_entity_entity_names idx n hmem, add_entity_vectors_length idx n hmem]
      simp [hInv.len_vec]
    · rw [add_entity_entity_names idx n hmem, add_entity_total_docs idx n hmem]
      simp [hInv.len_docs]
    · rw [add_entity_document_frequencies idx n hmem,
        add_entity_vocabulary idx n hmem, bumpAt_length]
      simp only [List.length_append, List.length_replicate]
      rw [hInv.df_len]
      omega
    · rw [add_entity_vocabulary idx n hmem]
      exact hVnd'
    · rw [add_entity_entity_names idx n hmem, add_entity_vocabulary idx n hmem]
      intro nm hnm t ht
      rcases List.mem_append.mp hnm with hnm | hnm
      · exact (mem_extendVocab _ _ t).mpr (Or.inl (hInv.tokens_sub nm hnm t ht))
      · rcases List.mem_singleton.mp hnm with rfl
        exact (mem_extendVocab _ _ t).mpr (Or.inr ht)
    · intro id hid
      rw [add_entity_vocabulary idx n hmem] at hid
      rw [add_entity_document_frequencies idx n hmem,
          add_entity_entity_names idx n hmem,
          add_entity_vocabulary idx n hmem]
      set V' := extendVocab idx.vocabulary (tokenize n) with hV'def
      set dfs0 := idx.document_frequencies ++
          List.replicate (V'.length - idx.vocabulary.length) 0 with hdfs0def
      have hdfs0len : dfs0.length = V'.length := by
        rw [hdfs0def]
        simp only [List.length_append, List.length_replicate]
        rw [hInv.df_len]
        omega
      have hUb : ∀ u ∈ tokenIds V' (tokenize n), u < dfs0.length := by
        intro u hu
        rw [hdfs0len]
        exact tokenIds_lt _ _ u hu
      rw [bumpAt_getD dfs0 _ 1 id (tokenIds_nodup _ _) hUb]
      rw [List.countP_append, List.countP_singleton]
      have hindU : id ∈ tokenIds V' (tokenize n) ↔ V'.getD id [] ∈ tokenize n :=
        mem_tokenIds_getD V' (tokenize n) id hVnd' hid
      by_cases hidV : id < idx.vocabulary.length
      · have hget : V'.getD id [] = idx.vocabulary.getD id [] := by
          rw [hVE]
          exact getD_append_left _ _ _ _ hidV
        have hdfs0get : dfs0.getD id 0 = idx.document_frequencies.getD id 0 := by
          rw [hdfs0def]
          exact getD_append_left _ _ _ _ (by rw [hInv.df_len]; exact hidV)
        rw [hget, hdfs0get, hInv.df_count id hidV]
        by_cases hPT : idx.vocabulary.getD id [] ∈ tokenize n
        · rw [if_pos (hindU.mpr (by rw [hget]; exact hPT))]
          rw [if_pos (by simpa using hPT)]
          push_cast
          ring
        · rw [if_neg (fun hc => hPT (by rw [← hget]; exact hindU.mp hc))]
          rw [if_neg (by simpa using hPT)]
          push_cast
          ring
      · have hiV : idx.vocabulary.length ≤ id := le_of_not_lt hidV
        have hidE : id - idx.vocabulary.length < E.length := by omega
        have hget : V'.getD id [] = E.getD (id - idx.vocabulary.length) [] := by
          rw [hVE]
          exact getD_append_right _ _ _ _ hiV
        have hwE : V'.getD id [] ∈ E := by
          rw [hget]
          exact getD_mem E _ [] hidE
        have hwT : V'.getD id [] ∈ tokenize n := hEsub _ hwE
        have hwnotV : V'.getD id [] ∉ idx.vocabulary := by
          have hnd := hVnd'
          rw [hVE] at hnd
          rcases List.nodup_append.mp hnd with ⟨-, -, hdisj⟩
          exact fun hc => hdisj hc hwE
        have hdfs0get : dfs0.getD id 0 = 0 := by
          rw [hdfs0def, getD_append_right _ _ _ _ (by rw [hInv.df_len]; exact hiV)]
          rw [hInv.df_len]
          exact getD_replicate_lt _ _ _ _ (by omega)
        have hcount0 : idx.entity_names.countP
            (fun nm => decide (V'.getD id [] ∈ tokenize nm)) = 0 := by
          rw [List.countP_eq_zero]
          intro nm hnm hc
          exact hwnotV (hInv.tokens_sub nm hnm _ (of_decide_eq_true hc))
        rw [hdfs0get, hcount0, if_pos (hindU.mpr hwT), if_pos (by simpa using hwT)]
        norm_num

theorem inv_remove (idx : TfIdfIndex) (n : String) (hInv : Inv idx) :
    Inv (idx.remove_entity n).2 := by
  cases hf : firstIdx? idx.entity_names n with
  | none =>
    rw [remove_entity_of_none idx n hf]
    exact hInv
  | some i =>
    rw [remove_entity_of_some idx n i hf]
    have hi : i < idx.entity_names.length := firstIdx?_lt_length _ _ _ hf
    have hni : idx.entity_names[i]? = some n := firstIdx?_getElem? _ _ _ hf
    have hUb : ∀ u ∈ tokenIds idx.vocabulary (tokenize n),
        u < idx.document_frequencies.length := by
      intro u hu
      rw [hInv.df_len]
      exact tokenIds_lt _ _ u hu
    refine ⟨?_, ?_, ?_, ?_, ?_, ?_⟩
    · simp [recalculate_all_idf]
    · show (idx.entity_names.eraseIdx i).length = idx.total_docs - 1
      rw [List.length_eraseIdx_of_lt hi, hInv.len_docs]
    · show (bumpAt idx.document_frequencies _ (-1)).length = idx.vocabulary.length
      rw [bumpAt_length, hInv.df_len]
    · exact hInv.vocab_nodup
    · intro nm hnm t ht
      have hnm' : nm ∈ idx.entity_names :=
        (List.eraseIdx_sublist idx.entity_names i).subset hnm
      exact hInv.tokens_sub nm hnm' t ht
    · intro id hid
      simp only [recalculate_all_idf] at hid ⊢
      rw [bumpAt_getD _ _ _ _ (tokenIds_nodup _ _) hUb]
      have hcnt := countP_eraseIdx idx.entity_names
        (fun nm => decide (idx.vocabulary.getD id [] ∈ tokenize nm)) i n hni
      rw [hInv.df_count id hid, hcnt]
      have hindU : id ∈ tokenIds idx.vocabulary (tokenize n)
          ↔ idx.vocabulary.getD id [] ∈ tokenize n :=
        mem_tokenIds_getD idx.vocabulary (tokenize n) id hInv.vocab_nodup hid
      by_cases hPT : idx.vocabulary.getD id [] ∈ tokenize n
      · rw [if_pos (hindU.mpr hPT), if_pos (by simpa using hPT)]
        push_cast
        ring
      · rw [if_neg (fun hc => hPT (hindU.mp hc)), if_neg (by simpa using hPT)]
        push_cast
        ring

theorem reachable_inv (idx : TfIdfIndex) (h : Reachable idx) : Inv idx := by
  induction h with
  | build names => exact inv_build names
  | add idx name _ ih => exact inv_add idx name ih
  | remove idx name _ ih => exact inv_remove idx name ih

/-- C4: every index produced by `build` and every index reached from it by
`add_entity` / `remove_entity` calls keeps the name list, the vector list and
`total_docs` in agreement, and every document frequency is the (non-negative)
number of indexed entities whose token set contains that id's token. -/
theorem index_structural_invariants (idx : TfIdfIndex) (h : Reachable idx) :
    idx.entity_names.length = idx.tfidf_vectors.length
      ∧ idx.entity_names.length = idx.total_docs
      ∧ ∀ id : ℕ, id < idx.vocabulary.length →
          0 ≤ idx.document_frequencies.getD id 0
          ∧ idx.document_frequencies.getD id 0 =
              (idx.entity_names.countP
                (fun nm => decide (idx.vocabulary.getD id [] ∈ tokenize nm)) : ℤ) := by
  have hInv := reachable_inv idx h
  refine ⟨hInv.len_vec, hInv.len_docs, fun id hid => ?_⟩
  have hc := hInv.df_count id hid
  constructor
  · rw [hc]
    exact Int.natCast_nonneg _
  · exact hc

/-- Witness for C4 on an index reached by a build, an insertion and a
removal. -/
theorem index_structural_invariants_witness :
    Reachable (((build_tfidf_index ["a","b"]).add_entity ("c")).remove_entity ("a")).2
      ∧ ((((build_tfidf_index ["a","b"]).add_entity ("c")).remove_entity ("a")).2.entity_names.length
          = (((build_tfidf_index ["a","b"]).add_entity ("c")).remove_entity ("a")).2.tfidf_vectors.length) :=
  ⟨Reachable.remove _ ("a") (Reachable.add _ ("c") (Reachable.build ["a","b"])),
   (index_structural_invariants _
     (Reachable.remove _ ("a") (Reachable.add _ ("c") (Reachable.build ["a","b"])))).1⟩

/-- C5: with no exact match, a candidate name enters the match list exactly
when its combined score `0.7 * string_similarity + 0.3 * tfidf_cosine`
reaches the inclusive threshold `FUZZY_MATCH_THRESHOLD = 0.3 = 3/10`; a
score of exactly `3/10` is included, a score of `0.29999` is excluded, and
when no candidate reaches the threshold the outcome is `NoMatch`
(`exact_match = false`, no suggestion, no score). -/
theorem fuzzy_threshold_boundary (idx : TfIdfIndex) (input : String)
    (h : input ∉ idx.entity_names) :
    FUZZY_MATCH_THRESHOLD = 3/10
      ∧ (∀ name s, (name, s) ∈ matchList input idx ↔
          name ∈ idx.entity_names ∧ s = combinedScore input idx name
            ∧ 3/10 ≤ s)
      ∧ (∀ name, name ∈ idx.entity_names → combinedScore input idx name = 3/10 →
          (name, combinedScore input idx name) ∈ matchList input idx)
      ∧ (∀ name s, combinedScore input idx name = 29999/100000 →
          (name, s) ∉ matchList input idx)
      ∧ ((∀ name ∈ idx.entity_names, combinedScore input idx name < 3/10) →
          find_fuzzy_match_in_index input idx = ⟨false, none, none⟩) := by
  have hθ : FUZZY_MATCH_THRESHOLD = 3/10 := by
    norm_num [FUZZY_MATCH_THRESHOLD]
  refine ⟨hθ, ?_, ?_, ?_, ?_⟩
  · intro name s
    rw [mem_matchList_iff, hθ]
  · intro name hmem hsc
    rw [mem_matchList_iff]
    exact ⟨hmem, rfl, by rw [hθ, hsc]⟩
  · intro name s hsc hc
    rcases (mem_matchList_iff input idx name s).mp hc with ⟨-, rfl, hge⟩
    rw [hθ, hsc] at hge
    norm_num at hge
  · intro hall
    rw [find_fuzzy_of_not_mem input idx h, matchList_eq_nil input idx
      (fun nm hnm => by rw [hθ]; exact hall nm hnm)]
    simp

/-- Witness for C5 on a concrete index with no exact match. -/
theorem fuzzy_threshold_boundary_witness :
    ("xq") ∉ (build_tfidf_index ["hello"]).entity_names
      ∧ FUZZY_MATCH_THRESHOLD = 3/10 :=
  ⟨by decide,
   (fuzzy_threshold_boundary (build_tfidf_index ["hello"]) ("xq") (by decide)).1⟩

/-- C10: the degenerate cases are all guarded: an empty token sequence gives
an empty term-frequency map (no division happens); cosine similarity is
`0.0` whenever either squared norm is zero; resolving any input against an
index built from the empty list yields `NoMatch` without failing; and on
every reachable index with at least one entity the corpus size is positive
and every idf argument `total_docs / (df + 1)` is strictly positive, so all
candidate scores handed to the descending sort are well-defined real
numbers (the order on them is total). -/
theorem degenerate_arithmetic_guarded :
    (∀ vocab : List (List Char), calculate_tf [] vocab = [])
    ∧ (∀ v1 v2 : List (ℕ × ℝ),
        (v1.map (fun p => p.2 * p.2)).sum = 0 ∨ (v2.map (fun p => p.2 * p.2)).sum = 0 →
        cosine_similarity v1 v2 = 0)
    ∧ (∀ input : String,
        find_fuzzy_match_in_index input (build_tfidf_index []) = ⟨false, none, none⟩)
    ∧ (∀ idx : TfIdfIndex, Reachable idx → idx.entity_names ≠ [] →
        0 < idx.total_docs
        ∧ ∀ id : ℕ, 0 ≤ idx.document_frequencies.getD id 0
          ∧ (0:ℝ) < (idx.total_docs : ℝ) /
              ((idx.document_frequencies.getD id 0 : ℝ) + 1)) := by
  refine ⟨?_, ?_, ?_, ?_⟩
  · intro vocab
    simp [calculate_tf]
  · intro v1 v2 hz
    simp only [cosine_similarity]
    rw [if_pos hz]
  · intro input
    have hb : build_tfidf_index [] = ⟨[], [], [], [], 0⟩ := by
      simp [build_tfidf_index]
    have hnm : input ∉ (build_tfidf_index []).entity_names := by
      rw [hb]
      simp
    rw [find_fuzzy_of_not_mem input _ hnm]
    have hml : matchList input (build_tfidf_index []) = [] := by
      rw [matchList, hb]
      simp
    rw [hml]
    simp
  · intro idx hreach hne
    have hInv := reachable_inv idx hreach
    have htot : 0 < idx.total_docs := by
      rw [← hInv.len_docs]
      exact List.length_pos.mpr hne
    refine ⟨htot, fun id => ?_⟩
    have hdf : 0 ≤ idx.document_frequencies.getD id 0 := by
      by_cases hid : id < idx.vocabulary.length
      · rw [hInv.df_count id hid]
        exact Int.natCast_nonneg _
      · rw [getD_of_length_le _ _ _ (by rw [hInv.df_len]; omega)]
    refine ⟨hdf, ?_⟩
    apply div_pos
    · exact_mod_cast htot
    · have hdfr : (0:ℝ) ≤ (idx.document_frequencies.getD id 0 : ℝ) := by
        exact_mod_cast hdf
      linarith

/-- Witness for C10: the reachability and non-emptiness hypotheses
discharged on a concrete singleton index, and the guarded branches exercised
at concrete degenerate inputs. -/
theorem degenerate_arithmetic_guarded_witness :
    calculate_tf [] [] = []
      ∧ cosine_similarity [] [] = 0
      ∧ find_fuzzy_match_in_index ("anything") (build_tfidf_index [])
          = ⟨false, none, none⟩
      ∧ Reachable (build_tfidf_index ["a"])
      ∧ (build_tfidf_index ["a"]).entity_names ≠ []
      ∧ 0 < (build_tfidf_index ["a"]).total_docs :=
  ⟨degenerate_arithmetic_guarded.1 [],
   degenerate_arithmetic_guarded.2.1 [] [] (Or.inl (by simp)),
   degenerate_arithmetic_guarded.2.2.1 ("anything"),
   Reachable.build ["a"],
   by decide,
   (degenerate_arithmetic_guarded.2.2.2 (build_tfidf_index ["a"])
     (Reachable.build ["a"]) (by decide)).1⟩

/-- C1 refuted on the code at a concrete input: adding `"gamma"` to the
index built from `["alpha", "beta"]` leaves the updated statistics
`total_docs = 3` and `df(gamma) = 1`, so the claimed weight of the newly
created token id `2` in the new entity's vector is
`tf * ln(total_docs / (df + 1)) = 1 * ln(3/2)`.  The stored weight however is
`ln(3/2) * ln(3/2)`: the new vector is first computed correctly as
`tf * idf`, but `recalculate_idf_for_new_words` then walks *all* vectors -
including the vector just pushed - and multiplies the already idf-scaled
stored weight (`tf_val`, which at that point equals `tf * idf`) by the idf a
second time.  Since `0 < ln(3/2) < 1`, the two values differ.  (On vectors
that existed before the call the rescale is vacuous: a pre-existing vector
cannot contain a newly created id, so the function's only real effect is
this corruption of the new vector, contradicting its own stated purpose of
recalculating the idf.) -/
theorem add_entity_new_word_weight_bug :
    ((build_tfidf_index ["alpha","beta"]).add_entity ("gamma")).total_docs = 3
    ∧ ((build_tfidf_index ["alpha","beta"]).add_entity
        ("gamma")).document_frequencies.getD 2 0 = 1
    ∧ (((build_tfidf_index ["alpha","beta"]).add_entity
        ("gamma")).tfidf_vectors.getD 2 []).lookup 2
        = some (Real.log ((3:ℝ)/2) * Real.log ((3:ℝ)/2))
    ∧ idf 3 1 = Real.log ((3:ℝ)/2)
    ∧ Real.log ((3:ℝ)/2) * Real.log ((3:ℝ)/2) ≠ (1:ℝ) * idf 3 1 := by
  have h0 : ("gamma") ∉ (build_tfidf_index ["alpha","beta"]).entity_names := by
    decide
  have h1 : extendVocab (build_tfidf_index ["alpha","beta"]).vocabulary
      (tokenize ("gamma"))
      = [['a','l','p','h','a'], ['b','e','t','a'], ['g','a','m','m','a']] := by
    decide
  have h2 : (build_tfidf_index ["alpha","beta"]).vocabulary.length = 2 := by decide
  have h3 : (build_tfidf_index ["alpha","beta"]).document_frequencies = [1, 1] := by
    decide
  have h4 : (build_tfidf_index ["alpha","beta"]).total_docs = 2 := by decide
  have hL : ([['a','l','p','h','a'], ['b','e','t','a'], ['g','a','m','m','a']]
      : List (List Char)).length - 2 = 1 := by decide
  have hR : List.range' 2 1 = [2] := by decide
  have hRep : List.replicate 1 (0:ℤ) = [0] := by decide
  have hApp : ([1,1] : List ℤ) ++ [0] = [1,1,0] := by decide
  have h5 : tokenIds [['a','l','p','h','a'], ['b','e','t','a'], ['g','a','m','m','a']]
      (tokenize ("gamma")) = [2] := by decide
  have h6 : bumpAt [1,1,0] [2] 1 = [1,1,1] := by decide
  have h8 : calculate_tf (tokenize ("gamma"))
      [['a','l','p','h','a'], ['b','e','t','a'], ['g','a','m','m','a']]
      = [(2, (1:ℚ))] := by
    have e1 : (tokenize ("gamma")).filterMap
        (fun t => firstIdx?
          [['a','l','p','h','a'], ['b','e','t','a'], ['g','a','m','m','a']] t)
        = [2] := by decide
    have e2 : (tokenize ("gamma")).length = 1 := by decide
    simp only [calculate_tf, e1, e2]
    norm_num
  have hIE : (([2] : List ℕ)).isEmpty = false := by decide
  have hg : ([1,1,1] : List ℤ).getD 2 0 = 1 := by decide
  have h7 : (build_tfidf_index ["alpha","beta"]).tfidf_vectors.length = 2 := by
    decide
  have hidf : idf 3 1 = Real.log ((3:ℝ)/2) := by
    rw [idf]
    norm_num
  refine ⟨by decide, by decide, ?_, hidf, ?_⟩
  · simp only [TfIdfIndex.add_entity, if_neg h0, h1, h2, h3, h4, hL, hR, hRep,
      hApp, h5, h6]
    simp only [hIE, Bool.false_eq_true, if_false, recalculate_idf_for_new_words]
    rw [List.getD_eq_getElem?_getD, List.getElem?_map,
      List.getElem?_append_right h7.le]
    simp only [h7]
    have h9 : (2:ℕ) - 2 = 0 := rfl
    simp only [h9, List.getElem?_cons_zero, Option.map_some, Option.getD_some,
      List.foldl_cons, List.foldl_nil]
    rw [tfidfVector, h8]
    simp only [List.map_cons, List.map_nil, rescaleEntry, hg]
    norm_num [List.lookup, idf]
  · rw [hidf, one_mul]
    have hpos : (0:ℝ) < Real.log ((3:ℝ)/2) := Real.log_pos (by norm_num)
    have hlt : Real.log ((3:ℝ)/2) < 1 := by
      have hexp : ((3:ℝ)/2) < Real.exp 1 :=
        lt_trans (by norm_num) Real.exp_one_gt_d9
      calc Real.log ((3:ℝ)/2) < Real.log (Real.exp 1) :=
            Real.log_lt_log (by norm_num) hexp
        _ = 1 := Real.log_exp 1
    nlinarith

end AIDE
